import Mathlib

/-!
Verification of the SSZ serializer (`serialize.ts`) of this repository.

The serializer writes a value into a pre-sized byte buffer.  Buffers are
modelled as `List Nat` of byte values; `writeBytes` overwrites a range of the
buffer (truncating at the end of the buffer, as `Buffer.copy` does) and always
preserves the buffer length.
-/

set_option maxHeartbeats 1000000

namespace SSZ

/-- Byte sequences are lists of naturals; a write past the end of the buffer is
truncated, exactly as Node's `Buffer.copy` stops at the target's end. -/
def writeBytes : List Nat → Nat → List Nat → List Nat
  | out, _, [] => out
  | [], _, _ :: _ => []
  | _ :: out, 0, d :: data => d :: writeBytes out 0 data
  | b :: out, s + 1, data => b :: writeBytes out s data

/-- Read the byte at index `i`, `0` when out of range. -/
def getByte (out : List Nat) (i : Nat) : Nat := out.getD i 0

/-- Little-endian byte encoding of `v` across `n` bytes (the layout produced by
`BN.toArrayLike(Buffer, "le", n)`; the value is reduced `mod 2^(8*n)`, while
`BN` would throw for an out-of-range value — all theorems below carry the
in-range hypotheses that make the two agree). -/
def bytesLE : Nat → Nat → List Nat
  | 0, _ => []
  | n + 1, v => v % 256 :: bytesLE n (v / 256)

/-- Little-endian decoding, the inverse of `bytesLE` on in-range values. -/
def fromBytesLE : List Nat → Nat
  | [] => 0
  | b :: bs => b + 256 * fromBytesLE bs

/-- Read `len` bytes starting at index `start`. -/
def readBytes (out : List Nat) (start len : Nat) : List Nat :=
  (out.drop start).take len

theorem writeBytes_length (out : List Nat) :
    ∀ (s : Nat) (data : List Nat), (writeBytes out s data).length = out.length := by
  induction out with
  | nil => intro s data; cases data <;> simp [writeBytes]
  | cons b out ih =>
    intro s data
    cases data with
    | nil => simp [writeBytes]
    | cons d ds =>
      cases s with
      | zero => simpa [writeBytes] using ih 0 ds
      | succ s => simpa [writeBytes] using ih s (d :: ds)

theorem getByte_writeBytes (out : List Nat) :
    ∀ (s : Nat) (data : List Nat) (i : Nat),
      getByte (writeBytes out s data) i =
        if s ≤ i ∧ i < s + data.length ∧ i < out.length then data.getD (i - s) 0
        else getByte out i := by
  induction out with
  | nil =>
    intro s data i
    rw [if_neg (by rintro ⟨_, _, h⟩; simp at h)]
    cases data <;> simp [writeBytes]
  | cons b out ih =>
    intro s data i
    cases data with
    | nil =>
      rw [if_neg (by rintro ⟨h1, h2, _⟩; simp at h2; omega)]
      simp [writeBytes]
    | cons d ds =>
      cases s with
      | zero =>
        cases i with
        | zero => simp [writeBytes, getByte]
        | succ i =>
          have h := ih 0 ds i
          simp only [writeBytes, getByte, List.getD_cons_succ, List.length_cons] at *
          rw [h]
          by_cases hc : i < ds.length ∧ i < out.length
          · rw [if_pos ⟨Nat.zero_le _, by omega, by omega⟩,
              if_pos ⟨Nat.zero_le _, by omega, by omega⟩]
            simp
          · rw [if_neg (by rintro ⟨_, h2, h3⟩; exact hc ⟨by omega, by omega⟩),
              if_neg (by rintro ⟨_, h2, h3⟩; exact hc ⟨by omega, by omega⟩)]
      | succ s =>
        cases i with
        | zero =>
          simp only [writeBytes, getByte, List.getD_cons_zero]
          rw [if_neg (by rintro ⟨h1, _, _⟩; omega)]
        | succ i =>
          have h := ih s (d :: ds) i
          simp only [writeBytes, getByte, List.getD_cons_succ, List.length_cons] at *
          rw [h]
          by_cases hc : s ≤ i ∧ i < s + (ds.length + 1) ∧ i < out.length
          · rw [if_pos hc, if_pos (by omega)]
            have he : i + 1 - (s + 1) = i - s := by omega
            rw [he]
          · rw [if_neg hc, if_neg (by rintro ⟨h1, h2, h3⟩; exact hc ⟨by omega, by omega, by omega⟩)]

/-- Uint values (`type Uint = number | BN` in the source): a non-negative
integer, or the positive-infinity sentinel `Infinity`. -/
inductive Uint where
  | int (n : Nat)
  | inf
deriving DecidableEq, Repr

/-- Parameters of a `UintType` descriptor: width in bytes, whether values are
represented as native numbers, and the additive bias `offset` (default 0). -/
structure UintType where
  byteLength : Nat
  useNumber : Bool
  offset : Nat
deriving DecidableEq, Repr

mutual

/-- Fully-qualified SSZ type descriptors (`FullSSZType` in `types.ts`). -/
inductive FullSSZType where
  | bool
  | uint (t : UintType)
  | byteVector (length : Nat)
  | byteList (maxLength : Nat)
  | vector (elementType : FullSSZType) (length : Nat)
  | list (elementType : FullSSZType) (maxLength : Nat)
  | container (fields : SSZFields)

/-- An ordered sequence of `(fieldName, fieldType)` pairs of a container. -/
inductive SSZFields where
  | nil
  | cons (name : String) (fieldType : FullSSZType) (rest : SSZFields)

end

mutual

/-- Serializable values (`SerializableValue` in `types.ts`). -/
inductive SerializableValue where
  | bool (b : Bool)
  | uint (v : Uint)
  | bytes (bs : List Nat)
  | arr (elems : SSZValues)
  | obj (fields : SSZObj)

/-- An ordered sequence of values (`SerializableArray`). -/
inductive SSZValues where
  | nil
  | cons (head : SerializableValue) (tail : SSZValues)

/-- A record value: ordered `(fieldName, value)` pairs (`SerializableObject`). -/
inductive SSZObj where
  | nil
  | cons (name : String) (val : SerializableValue) (rest : SSZObj)

end

/-- Number of elements of a value sequence. -/
def SSZValues.length : SSZValues → Nat
  | .nil => 0
  | .cons _ rest => rest.length + 1

/-- Field access `value[fieldName]`: the first binding of `name`, if any. -/
def SSZObj.lookup : SSZObj → String → Option SerializableValue
  | .nil, _ => none
  | .cons n v rest, name => if n = name then some v else rest.lookup name

/-- Field access with a default.  For a valid container value every declared
field is present, so the default (`false`, standing for Javascript
`undefined`) is never read on the paths the theorems below cover. -/
def SSZObj.lookupD (o : SSZObj) (name : String) : SerializableValue :=
  (o.lookup name).getD (.bool false)

/-- Whether the record binds `name`. -/
def SSZObj.hasName : SSZObj → String → Bool
  | .nil, _ => false
  | .cons n _ rest, name => n == name || rest.hasName name

/-- The field names of a record, in order. -/
def objNames : SSZObj → List String
  | .nil => []
  | .cons n _ rest => n :: objNames rest

/-- The declared field names of a container descriptor, in order. -/
def fieldNames : SSZFields → List String
  | .nil => []
  | .cons n _ rest => n :: fieldNames rest

/-- Conversion lists → SSZValues, for writing concrete examples. -/
def vlist : List SerializableValue → SSZValues
  | [] => .nil
  | v :: r => .cons v (vlist r)

/-- Conversion lists → SSZObj, for writing concrete examples. -/
def olist : List (String × SerializableValue) → SSZObj
  | [] => .nil
  | (n, v) :: r => .cons n v (olist r)

/-- Conversion lists → SSZFields, for writing concrete examples. -/
def flist : List (String × FullSSZType) → SSZFields
  | [] => .nil
  | (n, t) :: r => .cons n t (flist r)

mutual

/-- Modelled from the spec: `isVariableSizeType` lives in `util/types.ts`,
which is not under `src/`.  Spec §3: `Bool`, `Uint`, `ByteVector` are
fixed-size; `ByteList` and `List` are variable-size; a `Vector` is fixed-size
iff its element type is; a `Container` is fixed-size iff every field type
is. -/
def isVariableSizeType : FullSSZType → Bool
  | .bool => false
  | .uint _ => false
  | .byteVector _ => false
  | .byteList _ => true
  | .vector e _ => isVariableSizeType e
  | .list _ _ => true
  | .container fs => anyFieldVariable fs

/-- Whether some field of the sequence has variable size. -/
def anyFieldVariable : SSZFields → Bool
  | .nil => false
  | .cons _ t rest => isVariableSizeType t || anyFieldVariable rest

end

mutual

/-- Modelled from the spec: `fixedSize` lives in `size.ts`, which is not under
`src/`.  Spec §4.2: `Bool → 1`, `Uint{n} → n`, `ByteVector{L} → L`,
`Vector{T, L} → L * fixed_size(T)`, `Container → Σ fixed_size(field)`;
defined only for fixed-size types (the variable-size cases below return 0 and
are never consulted under that guard). -/
def fixedSize : FullSSZType → Nat
  | .bool => 1
  | .uint t => t.byteLength
  | .byteVector L => L
  | .byteList _ => 0
  | .vector e L => L * fixedSize e
  | .list _ _ => 0
  | .container fs => fieldsFixedSize fs

/-- Sum of the fixed sizes of a field sequence. -/
def fieldsFixedSize : SSZFields → Nat
  | .nil => 0
  | .cons _ t rest => fixedSize t + fieldsFixedSize rest

end

/-- Modelled from the spec: `BYTES_PER_LENGTH_PREFIX = 4` from `constants.ts`
(not under `src/`); the width of every offset slot. -/
def lengthPrefixBytes : Nat := 4

/-- Sum of `f` over a value sequence. -/
def valuesSum (f : SerializableValue → Nat) : SSZValues → Nat
  | .nil => 0
  | .cons v rest => f v + valuesSum f rest

mutual

/-- Modelled from the spec: `size` lives in `size.ts`, which is not under
`src/`.  Spec §4.2: for fixed-size `T` it returns `fixed_size(T)`;
`ByteList → len(v)`; a `List`/`Vector` of variable-size `T` takes
`len(v)·P + Σ size(v_i, T)` and of fixed-size `T` takes `len(v)·fixed_size(T)`
(equal to `fixed_size` for a valid vector); a `Container` adds
`fixed_size(T_j)` for fixed fields and `P + size(v_j, T_j)` for variable
fields.  Shape-mismatched `(value, type)` pairs are rejected by the validator
and fall through to `fixed_size`. -/
def size (value : SerializableValue) (type : FullSSZType) : Nat :=
  match type, value with
  | .byteList _, .bytes bs => bs.length
  | .vector e _, .arr vs | .list e _, .arr vs =>
    if isVariableSizeType e then
      vs.length * lengthPrefixBytes + valuesSum (fun v => size v e) vs
    else
      vs.length * fixedSize e
  | .container fs, .obj ov => sizeFields fs ov
  | t, _ => fixedSize t

/-- Size contribution of each container field (spec §4.2, Container case). -/
def sizeFields : SSZFields → SSZObj → Nat
  | .nil, _ => 0
  | .cons n t rest, ov =>
    (if isVariableSizeType t then lengthPrefixBytes + size (ov.lookupD n) t else fixedSize t)
      + sizeFields rest ov

end

/-- All bytes of the sequence are in range. -/
def allBytesLt256 (bs : List Nat) : Bool := bs.all (fun b => b < 256)

/-- Conjunction of `f` over a value sequence. -/
def allValues (f : SerializableValue → Bool) : SSZValues → Bool
  | .nil => true
  | .cons v rest => f v && allValues f rest

mutual

/-- Modelled from the spec: `assertValidValue` lives in `assertValidValue.ts`,
which is not under `src/`.  Spec §4.3: booleans at `Bool`; at `Uint` a
non-negative integer `< 2^(8·byteLength)`, or the infinity sentinel when
`byteLength > 6` and `useNumber`; byte sequences of exactly `length` /
at most `maxLength` bytes; element sequences of the right length with valid
elements; records with exactly the declared field names, each field value
valid at its type. -/
def validValue (value : SerializableValue) (type : FullSSZType) : Bool :=
  match type, value with
  | .bool, .bool _ => true
  | .uint t, .uint (.int v) => decide (v < 2 ^ (8 * t.byteLength))
  | .uint t, .uint .inf => decide (t.byteLength > 6) && t.useNumber
  | .byteVector L, .bytes bs => decide (bs.length = L) && allBytesLt256 bs
  | .byteList M, .bytes bs => decide (bs.length ≤ M) && allBytesLt256 bs
  | .vector e L, .arr vs => decide (vs.length = L) && allValues (fun v => validValue v e) vs
  | .list e M, .arr vs => decide (vs.length ≤ M) && allValues (fun v => validValue v e) vs
  | .container fs, .obj ov => validFields fs ov
  | _, _ => false

/-- Validity of a record against a field sequence, in declaration order.  A
record is a Javascript object, whose keys are necessarily distinct, so each
binding's name must not recur in the remainder. -/
def validFields : SSZFields → SSZObj → Bool
  | .nil, .nil => true
  | .cons n t rest, .cons n' v rest' =>
    decide (n = n') && !rest'.hasName n' && validValue v t && validFields rest rest'
  | .nil, .cons _ _ _ => false
  | .cons _ _ _, .nil => false

end

/-- Numeric reading of a `Uint` value as fed to `new BN(value)`.  `BN` rejects
`Infinity`, so the source throws on `inf` here; the validator only admits
`inf` where the sentinel branch of `_serializeUint` intercepts it, so the
value returned for `inf` (0) is never encoded. -/
def Uint.toNat : Uint → Nat
  | .int n => n
  | .inf => 0

/-- `output.writeUIntLE(value, start, byteLength)`: write `byteLength`
little-endian bytes of `value` (Node asserts `value < 2^(8·byteLength)`;
`bytesLE` reduces instead, and every use below is in range). -/
def writeUIntLE (output : List Nat) (value start byteLength : Nat) : List Nat :=
  writeBytes output start (bytesLE byteLength value)

/-- `_serializeUint` of `serialize.ts`: if `byteLength > 6 && useNumber &&
value === Infinity`, encode all-ones; otherwise encode `value + type.offset`
little-endian over `byteLength` bytes; return `start + byteLength`. -/
def _serializeUint (value : Uint) (t : UintType) (output : List Nat) (start : Nat) :
    List Nat × Nat :=
  let offset := start + t.byteLength
  let bnValue : List Nat :=
    if decide (t.byteLength > 6) && t.useNumber && (value == Uint.inf) then
      List.replicate t.byteLength 255
    else
      bytesLE t.byteLength (value.toNat + t.offset)
  (writeBytes output start bnValue, offset)

/-- `_serializeBool` of `serialize.ts`: one byte, `1` or `0`. -/
def _serializeBool (value : Bool) (output : List Nat) (start : Nat) : List Nat × Nat :=
  let offset := start + 1
  (writeBytes output start [if value then 1 else 0], offset)

/-- `_serializeByteArray` of `serialize.ts`: copy the bytes verbatim; the
returned index advances by `type.length` for a byte vector and by
`value.length` for a byte list. -/
def _serializeByteArray (value : List Nat) (type : FullSSZType) (output : List Nat)
    (start : Nat) : List Nat × Nat :=
  let length := match type with | .byteVector L => L | _ => value.length
  let offset := start + length
  (writeBytes output start value, offset)

/-- The fixed-size-element loop of `_serializeArray`: write each element
contiguously, threading the index. -/
def serializeFixedElems (f : SerializableValue → List Nat → Nat → List Nat × Nat) :
    SSZValues → List Nat → Nat → List Nat × Nat
  | .nil, output, index => (output, index)
  | .cons v rest, output, index =>
    let r := f v output index
    serializeFixedElems f rest r.1 r.2

/-- The variable-size-element loop of `_serializeArray`: write the element at
`currentOffsetIndex`, then its offset `currentOffsetIndex - start` at
`fixedIndex`, then advance both indices. -/
def serializeVarElems (f : SerializableValue → List Nat → Nat → List Nat × Nat) :
    SSZValues → List Nat → Nat → Nat → Nat → List Nat × Nat
  | .nil, output, _, _, currentOffsetIndex => (output, currentOffsetIndex)
  | .cons v rest, output, start, fixedIndex, currentOffsetIndex =>
    let r := f v output currentOffsetIndex
    let out2 := writeUIntLE r.1 (currentOffsetIndex - start) fixedIndex lengthPrefixBytes
    serializeVarElems f rest out2 start (fixedIndex + lengthPrefixBytes) r.2

/-- The `fixedLength` computation of `_serializeObject`: each variable-size
field contributes `BYTES_PER_LENGTH_PREFIX`, each fixed-size field its fixed
size. -/
def fieldsFixedLength : SSZFields → Nat
  | .nil => 0
  | .cons _ t rest =>
    (if isVariableSizeType t then lengthPrefixBytes else fixedSize t) + fieldsFixedLength rest

mutual

/-- `_serialize` of `serialize.ts`: dispatch on the type tag.  The array cases
inline `_serializeArray` (which the source calls with the whole `ArrayType`
and which reads only `type.elementType`), and the container case inlines
`_serializeObject`; the standalone wrappers below are definitionally equal to
these cases.  A shape-mismatched `(value, type)` pair (rejected by the
validator) writes nothing. -/
def _serialize (value : SerializableValue) (type : FullSSZType) (output : List Nat)
    (start : Nat) : List Nat × Nat :=
  match type, value with
  | .bool, .bool b => _serializeBool b output start
  | .uint t, .uint v => _serializeUint v t output start
  | .byteVector L, .bytes bs => _serializeByteArray bs (.byteVector L) output start
  | .byteList M, .bytes bs => _serializeByteArray bs (.byteList M) output start
  | .vector e _, .arr vs | .list e _, .arr vs =>
    if isVariableSizeType e then
      serializeVarElems (fun v out cur => _serialize v e out cur) vs output start start
        (start + vs.length * lengthPrefixBytes)
    else
      serializeFixedElems (fun v out idx => _serialize v e out idx) vs output start
  | .container fs, .obj ov =>
    serializeObjectLoop ov fs output start start (start + fieldsFixedLength fs)
  | _, _ => (output, start)

/-- The field loop of `_serializeObject`: a variable-size field is written at
`currentOffsetIndex` and its offset at `fixedIndex`; a fixed-size field is
written inline at `fixedIndex`. -/
def serializeObjectLoop (value : SSZObj) (fields : SSZFields) (output : List Nat)
    (start fixedIndex currentOffsetIndex : Nat) : List Nat × Nat :=
  match fields with
  | .nil => (output, currentOffsetIndex)
  | .cons name t rest =>
    if isVariableSizeType t then
      let r := _serialize (value.lookupD name) t output currentOffsetIndex
      let out2 := writeUIntLE r.1 (currentOffsetIndex - start) fixedIndex lengthPrefixBytes
      serializeObjectLoop value rest out2 start (fixedIndex + lengthPrefixBytes) r.2
    else
      let r := _serialize (value.lookupD name) t output fixedIndex
      serializeObjectLoop value rest r.1 start r.2 currentOffsetIndex

end

/-- `_serializeArray` of `serialize.ts` (the source receives the `ArrayType`
and uses only its `elementType`). -/
def _serializeArray (value : SSZValues) (elementType : FullSSZType) (output : List Nat)
    (start : Nat) : List Nat × Nat :=
  if isVariableSizeType elementType then
    serializeVarElems (fun v out cur => _serialize v elementType out cur) value output start
      start (start + value.length * lengthPrefixBytes)
  else
    serializeFixedElems (fun v out idx => _serialize v elementType out idx) value output start

/-- `_serializeObject` of `serialize.ts`. -/
def _serializeObject (value : SSZObj) (fields : SSZFields) (output : List Nat)
    (start : Nat) : List Nat × Nat :=
  serializeObjectLoop value fields output start start (start + fieldsFixedLength fields)

/-- `serialize` of `serialize.ts`: normalize the type (`parseType`, not under
`src/`; here the type arrives already normalized), validate the value
(`assertValidValue` throws, modelled as `Except.error`), then allocate a
zero-initialized buffer of length `size(value, type)` and run the dispatcher
at offset 0.  Validation happens before the buffer exists, so an error returns
no buffer. -/
def serialize (value : SerializableValue) (type : FullSSZType) : Except String (List Nat) :=
  if validValue value type then
    let buf := List.replicate (size value type) 0
    Except.ok (_serialize value type buf 0).1
  else
    Except.error "invalid value"

theorem bytesLE_length (n : Nat) : ∀ v, (bytesLE n v).length = n := by
  induction n with
  | zero => intro v; rfl
  | succ n ih => intro v; simp [bytesLE, ih]

theorem fromBytesLE_bytesLE (n : Nat) : ∀ v, v < 2 ^ (8 * n) → fromBytesLE (bytesLE n v) = v := by
  induction n with
  | zero => intro v hv; simp at hv; simp [bytesLE, fromBytesLE, hv]
  | succ n ih =>
    intro v hv
    have h : v / 256 < 2 ^ (8 * n) := by
      rw [Nat.div_lt_iff_lt_mul (by norm_num)]
      calc v < 2 ^ (8 * (n + 1)) := hv
        _ = 2 ^ (8 * n) * 256 := by ring
    simp only [bytesLE, fromBytesLE, ih (v / 256) h]
    omega

theorem readBytes_length (out : List Nat) (start len : Nat)
    (h : start + len ≤ out.length) : (readBytes out start len).length = len := by
  simp [readBytes]
  omega

theorem getElem_readBytes (out : List Nat) (start len i : Nat)
    (h : start + len ≤ out.length) (hi : i < len) :
    (readBytes out start len).getD i 0 = getByte out (start + i) := by
  have hlen : (readBytes out start len).length = len := readBytes_length out start len h
  have h1 : i < (readBytes out start len).length := by omega
  rw [List.getD_eq_getElem _ _ h1]
  have h2 : start + i < out.length := by omega
  simp only [readBytes]
  rw [List.getElem_take, List.getElem_drop]
  unfold getByte
  rw [List.getD_eq_getElem _ _ h2]

theorem readBytes_congr (out1 out2 : List Nat) (start len : Nat)
    (hlen : out1.length = out2.length) (h : start + len ≤ out1.length)
    (hpt : ∀ i, i < len → getByte out1 (start + i) = getByte out2 (start + i)) :
    readBytes out1 start len = readBytes out2 start len := by
  apply List.ext_getElem
  · rw [readBytes_length out1 start len h, readBytes_length out2 start len (by omega)]
  · intro i h1 h2
    have hi : i < len := by
      have := readBytes_length out1 start len h
      omega
    have e1 := getElem_readBytes out1 start len i h hi
    have e2 := getElem_readBytes out2 start len i (by omega) hi
    rw [List.getD_eq_getElem _ _ h1] at e1
    rw [List.getD_eq_getElem _ _ h2] at e2
    rw [e1, e2, hpt i hi]

theorem readBytes_writeBytes (out : List Nat) (start : Nat) (data : List Nat)
    (h : start + data.length ≤ out.length) :
    readBytes (writeBytes out start data) start data.length = data := by
  have hl : (writeBytes out start data).length = out.length := writeBytes_length out start data
  apply List.ext_getElem
  · rw [readBytes_length _ start data.length (by omega)]
  · intro i h1 h2
    have hi : i < data.length := h2
    have e1 := getElem_readBytes (writeBytes out start data) start data.length i (by omega) hi
    rw [List.getD_eq_getElem _ _ h1] at e1
    rw [e1, getByte_writeBytes out start data (start + i),
      if_pos ⟨by omega, by omega, by omega⟩]
    simp [List.getElem?_eq_getElem hi]

theorem valuesSum_nonneg_mono (f : SerializableValue → Nat) (v : SerializableValue)
    (rest : SSZValues) : valuesSum f (.cons v rest) = f v + valuesSum f rest := rfl

/-- The size accounted to a variable-size field by `sizeFields` splits into the
offset-slot width plus the body size; fixed fields contribute their fixed
size. -/
def varFieldsSize : SSZFields → SSZObj → Nat
  | .nil, _ => 0
  | .cons n t rest, ov =>
    (if isVariableSizeType t then size (ov.lookupD n) t else 0) + varFieldsSize rest ov

theorem sizeFields_split : ∀ (fs : SSZFields) (ov : SSZObj),
    sizeFields fs ov = fieldsFixedLength fs + varFieldsSize fs ov
  | .nil, _ => rfl
  | .cons n t rest, ov => by
    have ih := sizeFields_split rest ov
    simp only [sizeFields, fieldsFixedLength, varFieldsSize, ih]
    by_cases h : isVariableSizeType t <;> simp [h] <;> omega

theorem sizeFields_of_no_variable : ∀ (fs : SSZFields) (ov : SSZObj),
    anyFieldVariable fs = false → sizeFields fs ov = fieldsFixedSize fs
  | .nil, _, _ => rfl
  | .cons n t rest, ov, h => by
    simp only [anyFieldVariable, Bool.or_eq_false_iff] at h
    simp only [sizeFields, fieldsFixedSize, sizeFields_of_no_variable rest ov h.2, h.1]
    simp

theorem validValue_vector_elim {e : FullSSZType} {L : Nat} :
    ∀ {v : SerializableValue}, validValue v (.vector e L) = true →
      ∃ vs, v = .arr vs ∧ vs.length = L ∧ allValues (fun x => validValue x e) vs = true
  | .arr vs, hv => by
    simp only [validValue, Bool.and_eq_true, decide_eq_true_eq] at hv
    exact ⟨vs, rfl, hv.1, hv.2⟩
  | .bool _, hv => nomatch hv
  | .uint _, hv => nomatch hv
  | .bytes _, hv => nomatch hv
  | .obj _, hv => nomatch hv

theorem validValue_list_elim {e : FullSSZType} {M : Nat} :
    ∀ {v : SerializableValue}, validValue v (.list e M) = true →
      ∃ vs, v = .arr vs ∧ vs.length ≤ M ∧ allValues (fun x => validValue x e) vs = true
  | .arr vs, hv => by
    simp only [validValue, Bool.and_eq_true, decide_eq_true_eq] at hv
    exact ⟨vs, rfl, hv.1, hv.2⟩
  | .bool _, hv => nomatch hv
  | .uint _, hv => nomatch hv
  | .bytes _, hv => nomatch hv
  | .obj _, hv => nomatch hv

theorem validValue_container_elim {fs : SSZFields} :
    ∀ {v : SerializableValue}, validValue v (.container fs) = true →
      ∃ ov, v = .obj ov ∧ validFields fs ov = true
  | .obj ov, hv => ⟨ov, rfl, hv⟩
  | .bool _, hv => nomatch hv
  | .uint _, hv => nomatch hv
  | .bytes _, hv => nomatch hv
  | .arr _, hv => nomatch hv

theorem validValue_byteVector_elim {L : Nat} :
    ∀ {v : SerializableValue}, validValue v (.byteVector L) = true →
      ∃ bs, v = .bytes bs ∧ bs.length = L ∧ allBytesLt256 bs = true
  | .bytes bs, hv => by
    simp only [validValue, Bool.and_eq_true, decide_eq_true_eq] at hv
    exact ⟨bs, rfl, hv.1, hv.2⟩
  | .bool _, hv => nomatch hv
  | .uint _, hv => nomatch hv
  | .arr _, hv => nomatch hv
  | .obj _, hv => nomatch hv

theorem validValue_byteList_elim {M : Nat} :
    ∀ {v : SerializableValue}, validValue v (.byteList M) = true →
      ∃ bs, v = .bytes bs ∧ bs.length ≤ M ∧ allBytesLt256 bs = true
  | .bytes bs, hv => by
    simp only [validValue, Bool.and_eq_true, decide_eq_true_eq] at hv
    exact ⟨bs, rfl, hv.1, hv.2⟩
  | .bool _, hv => nomatch hv
  | .uint _, hv => nomatch hv
  | .arr _, hv => nomatch hv
  | .obj _, hv => nomatch hv

/-- For a valid value of a fixed-size type, `size` agrees with `fixedSize`
(spec §4.2 and testable property 5). -/
theorem size_eq_fixedSize : ∀ (t : FullSSZType) (v : SerializableValue),
    validValue v t = true → isVariableSizeType t = false → size v t = fixedSize t
  | .bool, v, _, _ => by cases v <;> rfl
  | .uint _, v, _, _ => by cases v <;> rfl
  | .byteVector _, v, _, _ => by cases v <;> rfl
  | .byteList _, _, _, hfix => by simp [isVariableSizeType] at hfix
  | .list _ _, _, _, hfix => by simp [isVariableSizeType] at hfix
  | .vector e L, v, hv, hfix => by
    obtain ⟨vs, rfl, hlen, _⟩ := validValue_vector_elim hv
    simp only [isVariableSizeType] at hfix
    simp [size, fixedSize, hfix, hlen]
  | .container fs, v, hv, hfix => by
    obtain ⟨ov, rfl, _⟩ := validValue_container_elim hv
    simp only [isVariableSizeType] at hfix
    simp only [size, fixedSize]
    exact sizeFields_of_no_variable fs ov hfix

theorem valuesSum_size_of_fixed (e : FullSSZType) (hfix : isVariableSizeType e = false) :
    ∀ (vs : SSZValues), allValues (fun v => validValue v e) vs = true →
      valuesSum (fun v => size v e) vs = vs.length * fixedSize e
  | .nil, _ => by simp [valuesSum, SSZValues.length]
  | .cons v rest, h => by
    simp only [allValues, Bool.and_eq_true] at h
    simp only [valuesSum, SSZValues.length, size_eq_fixedSize e v h.1 hfix,
      valuesSum_size_of_fixed e hfix rest h.2]
    ring

theorem serializeFixedElems_length (f : SerializableValue → List Nat → Nat → List Nat × Nat)
    (Hf : ∀ v out idx, ((f v out idx).1).length = out.length) :
    ∀ (vs : SSZValues) (out : List Nat) (idx : Nat),
      ((serializeFixedElems f vs out idx).1).length = out.length
  | .nil, _, _ => rfl
  | .cons v rest, out, idx => by
    simp only [serializeFixedElems]
    rw [serializeFixedElems_length f Hf rest (f v out idx).1 (f v out idx).2, Hf]

theorem serializeVarElems_length (f : SerializableValue → List Nat → Nat → List Nat × Nat)
    (Hf : ∀ v out idx, ((f v out idx).1).length = out.length) :
    ∀ (vs : SSZValues) (out : List Nat) (start fi cur : Nat),
      ((serializeVarElems f vs out start fi cur).1).length = out.length
  | .nil, _, _, _, _ => rfl
  | .cons v rest, out, start, fi, cur => by
    simp only [serializeVarElems]
    rw [serializeVarElems_length f Hf rest _ start (fi + lengthPrefixBytes) (f v out cur).2]
    unfold writeUIntLE
    rw [writeBytes_length, Hf]

mutual

/-- The dispatcher never changes the length of the output buffer (writes are
`Buffer.copy`-style in-place writes). -/
theorem serialize_length : ∀ (type : FullSSZType) (value : SerializableValue)
    (output : List Nat) (start : Nat),
    ((_serialize value type output start).1).length = output.length
  | .bool, v, out, s => by
    cases v <;> simp [_serialize, _serializeBool, writeBytes_length]
  | .uint t, v, out, s => by
    cases v <;> simp [_serialize, _serializeUint, writeBytes_length]
  | .byteVector L, v, out, s => by
    cases v <;> simp [_serialize, _serializeByteArray, writeBytes_length]
  | .byteList M, v, out, s => by
    cases v <;> simp [_serialize, _serializeByteArray, writeBytes_length]
  | .vector e L, v, out, s => by
    cases v <;> simp only [_serialize] <;> try rfl
    split
    · exact serializeVarElems_length _ (fun v o c => serialize_length e v o c) _ out s s _
    · exact serializeFixedElems_length _ (fun v o c => serialize_length e v o c) _ out s
  | .list e M, v, out, s => by
    cases v <;> simp only [_serialize] <;> try rfl
    split
    · exact serializeVarElems_length _ (fun v o c => serialize_length e v o c) _ out s s _
    · exact serializeFixedElems_length _ (fun v o c => serialize_length e v o c) _ out s
  | .container fs, v, out, s => by
    cases v <;> simp only [_serialize] <;> try rfl
    exact serializeObjectLoop_length fs _ out s s _

/-- The container field loop never changes the length of the output buffer. -/
theorem serializeObjectLoop_length : ∀ (fields : SSZFields) (value : SSZObj)
    (output : List Nat) (start fi cur : Nat),
    ((serializeObjectLoop value fields output start fi cur).1).length = output.length
  | .nil, _, _, _, _, _ => rfl
  | .cons n t rest, ov, out, s, fi, cur => by
    simp only [serializeObjectLoop]
    split
    · rw [serializeObjectLoop_length rest ov _ s (fi + lengthPrefixBytes)
        (_serialize (ov.lookupD n) t out cur).2]
      unfold writeUIntLE
      rw [writeBytes_length, serialize_length t (ov.lookupD n) out cur]
    · rw [serializeObjectLoop_length rest ov _ s (_serialize (ov.lookupD n) t out fi).2 cur,
        serialize_length t (ov.lookupD n) out fi]

end

theorem validValue_bool_elim :
    ∀ {v : SerializableValue}, validValue v .bool = true → ∃ b, v = .bool b
  | .bool b, _ => ⟨b, rfl⟩
  | .uint _, hv => nomatch hv
  | .bytes _, hv => nomatch hv
  | .arr _, hv => nomatch hv
  | .obj _, hv => nomatch hv

theorem validValue_uint_elim {t : UintType} :
    ∀ {v : SerializableValue}, validValue v (.uint t) = true → ∃ u, v = .uint u
  | .uint u, _ => ⟨u, rfl⟩
  | .bool _, hv => nomatch hv
  | .bytes _, hv => nomatch hv
  | .arr _, hv => nomatch hv
  | .obj _, hv => nomatch hv

/-- Lookup-based validity: every declared field, looked up by name in the
record the way the serializer and the size oracle do, is valid at its type. -/
def fieldsLookupValid : SSZFields → SSZObj → Bool
  | .nil, _ => true
  | .cons n t rest, ov => validValue (ov.lookupD n) t && fieldsLookupValid rest ov

theorem hasName_eq_mem_objNames : ∀ (ov : SSZObj) (m : String),
    ov.hasName m = true ↔ m ∈ objNames ov
  | .nil, m => by simp [SSZObj.hasName, objNames]
  | .cons n v rest, m => by
    simp [SSZObj.hasName, objNames, hasName_eq_mem_objNames rest m, beq_iff_eq]
    tauto

theorem fieldsLookupValid_of_validFields_gen : ∀ (fs : SSZFields) (ov OV : SSZObj),
    validFields fs ov = true → (∀ m, m ∈ objNames ov → OV.lookup m = ov.lookup m) →
    fieldsLookupValid fs OV = true
  | .nil, .nil, _, _, _ => rfl
  | .nil, .cons _ _ _, _, h, _ => nomatch h
  | .cons _ _ _, .nil, _, h, _ => nomatch h
  | .cons n t rest, .cons n' v rest', OV, h, hagree => by
    simp only [validFields, Bool.and_eq_true, decide_eq_true_eq, Bool.not_eq_true'] at h
    obtain ⟨⟨⟨hn, hdup⟩, hvv⟩, hvf⟩ := h
    have hlook : OV.lookup n = some v := by
      rw [hagree n (by simp [objNames, hn]), SSZObj.lookup, if_pos hn.symm]
    simp only [fieldsLookupValid, Bool.and_eq_true]
    refine ⟨by simp [SSZObj.lookupD, hlook, hvv], ?_⟩
    refine fieldsLookupValid_of_validFields_gen rest rest' OV hvf ?_
    intro m hm
    have hne : n' ≠ m := by
      intro he
      rw [he] at hdup
      exact absurd ((hasName_eq_mem_objNames rest' m).2 hm) (by simp [hdup])
    rw [hagree m (by simp [objNames, hm]), SSZObj.lookup, if_neg hne]

theorem fieldsLookupValid_of_validFields (fs : SSZFields) (ov : SSZObj)
    (h : validFields fs ov = true) : fieldsLookupValid fs ov = true :=
  fieldsLookupValid_of_validFields_gen fs ov ov h (fun _ _ => rfl)

theorem serializeFixedElems_index (f : SerializableValue → List Nat → Nat → List Nat × Nat)
    (e : FullSSZType)
    (Hf : ∀ v out idx, validValue v e = true → (f v out idx).2 = idx + size v e) :
    ∀ (vs : SSZValues) (out : List Nat) (idx : Nat),
      allValues (fun v => validValue v e) vs = true →
      (serializeFixedElems f vs out idx).2 = idx + valuesSum (fun v => size v e) vs
  | .nil, out, idx, _ => by simp [serializeFixedElems, valuesSum]
  | .cons v rest, out, idx, h => by
    simp only [allValues, Bool.and_eq_true] at h
    simp only [serializeFixedElems, valuesSum]
    rw [serializeFixedElems_index f e Hf rest _ _ h.2, Hf v out idx h.1]
    omega

theorem serializeVarElems_index (f : SerializableValue → List Nat → Nat → List Nat × Nat)
    (e : FullSSZType)
    (Hf : ∀ v out idx, validValue v e = true → (f v out idx).2 = idx + size v e) :
    ∀ (vs : SSZValues) (out : List Nat) (start fi cur : Nat),
      allValues (fun v => validValue v e) vs = true →
      (serializeVarElems f vs out start fi cur).2 = cur + valuesSum (fun v => size v e) vs
  | .nil, out, _, _, cur, _ => by simp [serializeVarElems, valuesSum]
  | .cons v rest, out, start, fi, cur, h => by
    simp only [allValues, Bool.and_eq_true] at h
    simp only [serializeVarElems, valuesSum]
    rw [serializeVarElems_index f e Hf rest _ start _ _ h.2, Hf v out cur h.1]
    omega

mutual

/-- The dispatcher's post-write index: for a valid value, `_serialize` returns
`start + size(value, type)`. -/
theorem serialize_index : ∀ (type : FullSSZType) (value : SerializableValue),
    validValue value type = true → ∀ (output : List Nat) (start : Nat),
    (_serialize value type output start).2 = start + size value type
  | .bool, v, hv, out, s => by
    obtain ⟨b, rfl⟩ := validValue_bool_elim hv
    rfl
  | .uint t, v, hv, out, s => by
    obtain ⟨u, rfl⟩ := validValue_uint_elim hv
    rfl
  | .byteVector L, v, hv, out, s => by
    obtain ⟨bs, rfl, hlen, _⟩ := validValue_byteVector_elim hv
    simp [_serialize, _serializeByteArray, size, fixedSize]
  | .byteList M, v, hv, out, s => by
    obtain ⟨bs, rfl, _, _⟩ := validValue_byteList_elim hv
    simp [_serialize, _serializeByteArray, size]
  | .vector e L, v, hv, out, s => by
    obtain ⟨vs, rfl, hlen, hall⟩ := validValue_vector_elim hv
    simp only [_serialize, size]
    by_cases hvar : isVariableSizeType e
    · rw [if_pos hvar, if_pos hvar,
        serializeVarElems_index _ e (fun v o c hv => serialize_index e v hv o c) vs out s s _ hall]
      omega
    · rw [if_neg hvar, if_neg hvar,
        serializeFixedElems_index _ e (fun v o c hv => serialize_index e v hv o c) vs out s hall,
        valuesSum_size_of_fixed e (by simpa using hvar) vs hall]
  | .list e M, v, hv, out, s => by
    obtain ⟨vs, rfl, hlen, hall⟩ := validValue_list_elim hv
    simp only [_serialize, size]
    by_cases hvar : isVariableSizeType e
    · rw [if_pos hvar, if_pos hvar,
        serializeVarElems_index _ e (fun v o c hv => serialize_index e v hv o c) vs out s s _ hall]
      omega
    · rw [if_neg hvar, if_neg hvar,
        serializeFixedElems_index _ e (fun v o c hv => serialize_index e v hv o c) vs out s hall,
        valuesSum_size_of_fixed e (by simpa using hvar) vs hall]
  | .container fs, v, hv, out, s => by
    obtain ⟨ov, rfl, hvf⟩ := validValue_container_elim hv
    simp only [_serialize, size]
    rw [serializeObjectLoop_index fs ov (fieldsLookupValid_of_validFields fs ov hvf) out s s _,
      sizeFields_split fs ov]
    omega

/-- The container field loop advances `currentOffsetIndex` by exactly the sum
of the sizes of the variable-size field bodies. -/
theorem serializeObjectLoop_index : ∀ (fields : SSZFields) (value : SSZObj),
    fieldsLookupValid fields value = true → ∀ (output : List Nat) (start fi cur : Nat),
    (serializeObjectLoop value fields output start fi cur).2 = cur + varFieldsSize fields value
  | .nil, ov, _, out, s, fi, cur => by simp [serializeObjectLoop, varFieldsSize]
  | .cons n t rest, ov, h, out, s, fi, cur => by
    simp only [fieldsLookupValid, Bool.and_eq_true] at h
    simp only [serializeObjectLoop, varFieldsSize]
    by_cases hvar : isVariableSizeType t
    · rw [if_pos hvar, if_pos hvar,
        serializeObjectLoop_index rest ov h.2 _ s _ _,
        serialize_index t (ov.lookupD n) h.1 out cur]
      omega
    · rw [if_neg hvar, if_neg hvar,
        serializeObjectLoop_index rest ov h.2 _ s _ _]
      omega

end

theorem getByte_writeBytes_out (out : List Nat) (s : Nat) (data : List Nat) (i : Nat)
    (h : i < s ∨ s + data.length ≤ i) :
    getByte (writeBytes out s data) i = getByte out i := by
  rw [getByte_writeBytes, if_neg]
  rintro ⟨h1, h2, _⟩
  omega

theorem serializeFixedElems_frame (f : SerializableValue → List Nat → Nat → List Nat × Nat)
    (e : FullSSZType)
    (Hfi : ∀ v out idx, validValue v e = true → (f v out idx).2 = idx + size v e)
    (Hff : ∀ v out idx, validValue v e = true → ∀ i, i < idx ∨ idx + size v e ≤ i →
      getByte (f v out idx).1 i = getByte out i) :
    ∀ (vs : SSZValues) (out : List Nat) (idx : Nat),
      allValues (fun v => validValue v e) vs = true →
      ∀ i, i < idx ∨ idx + valuesSum (fun v => size v e) vs ≤ i →
      getByte (serializeFixedElems f vs out idx).1 i = getByte out i
  | .nil, out, idx, _, i, _ => rfl
  | .cons v rest, out, idx, h, i, hi => by
    simp only [allValues, Bool.and_eq_true] at h
    simp only [valuesSum] at hi
    simp only [serializeFixedElems]
    rw [serializeFixedElems_frame f e Hfi Hff rest _ _ h.2 i (by rw [Hfi v out idx h.1]; omega),
      Hff v out idx h.1 i (by omega)]

theorem serializeVarElems_frame (f : SerializableValue → List Nat → Nat → List Nat × Nat)
    (e : FullSSZType)
    (Hfi : ∀ v out idx, validValue v e = true → (f v out idx).2 = idx + size v e)
    (Hff : ∀ v out idx, validValue v e = true → ∀ i, i < idx ∨ idx + size v e ≤ i →
      getByte (f v out idx).1 i = getByte out i) :
    ∀ (vs : SSZValues) (out : List Nat) (start fi cur : Nat),
      allValues (fun v => validValue v e) vs = true →
      fi + lengthPrefixBytes * vs.length ≤ cur →
      ∀ i, i < fi ∨ cur + valuesSum (fun v => size v e) vs ≤ i →
      getByte (serializeVarElems f vs out start fi cur).1 i = getByte out i
  | .nil, out, start, fi, cur, _, _, i, _ => rfl
  | .cons v rest, out, start, fi, cur, h, hreg, i, hi => by
    simp only [allValues, Bool.and_eq_true] at h
    simp only [valuesSum] at hi
    simp only [SSZValues.length] at hreg
    simp only [serializeVarElems]
    rw [serializeVarElems_frame f e Hfi Hff rest _ start _ _ h.2
        (by rw [Hfi v out cur h.1]; simp only [lengthPrefixBytes] at *; omega)
        i (by rw [Hfi v out cur h.1]; simp only [lengthPrefixBytes] at *; omega)]
    unfold writeUIntLE
    rw [getByte_writeBytes_out _ _ _ i
        (by rw [bytesLE_length]; simp only [lengthPrefixBytes] at *; omega),
      Hff v out cur h.1 i (by simp only [lengthPrefixBytes] at *; omega)]

mutual

/-- Frame property of the dispatcher: for a valid value, `_serialize` changes
no byte outside `[start, start + size(value, type))`. -/
theorem serialize_frame : ∀ (type : FullSSZType) (value : SerializableValue),
    validValue value type = true → ∀ (output : List Nat) (start i : Nat),
    i < start ∨ start + size value type ≤ i →
    getByte ((_serialize value type output start).1) i = getByte output i
  | .bool, v, hv, out, s, i, hi => by
    obtain ⟨b, rfl⟩ := validValue_bool_elim hv
    simp only [_serialize, _serializeBool]
    exact getByte_writeBytes_out out s _ i (by simpa using hi)
  | .uint t, v, hv, out, s, i, hi => by
    obtain ⟨u, rfl⟩ := validValue_uint_elim hv
    simp only [_serialize, _serializeUint]
    apply getByte_writeBytes_out out s _ i
    have hlen : (if decide (t.byteLength > 6) && t.useNumber && (u == Uint.inf) then
        List.replicate t.byteLength 255
      else bytesLE t.byteLength (u.toNat + t.offset)).length = t.byteLength := by
      split <;> simp [bytesLE_length]
    rw [hlen]
    simpa [size, fixedSize] using hi
  | .byteVector L, v, hv, out, s, i, hi => by
    obtain ⟨bs, rfl, hlen, _⟩ := validValue_byteVector_elim hv
    simp only [_serialize, _serializeByteArray]
    apply getByte_writeBytes_out out s _ i
    rw [hlen]
    simpa [size, fixedSize] using hi
  | .byteList M, v, hv, out, s, i, hi => by
    obtain ⟨bs, rfl, _, _⟩ := validValue_byteList_elim hv
    simp only [_serialize, _serializeByteArray]
    apply getByte_writeBytes_out out s _ i
    simpa [size] using hi
  | .vector e L, v, hv, out, s, i, hi => by
    obtain ⟨vs, rfl, hlen, hall⟩ := validValue_vector_elim hv
    simp only [size] at hi
    simp only [_serialize]
    by_cases hvar : isVariableSizeType e
    · rw [if_pos hvar] at hi ⊢
      exact serializeVarElems_frame _ e
        (fun v o c hv => serialize_index e v hv o c)
        (fun v o c hv => serialize_frame e v hv o c) vs out s s
        (s + vs.length * lengthPrefixBytes) hall
        (by simp only [lengthPrefixBytes]; omega) i
        (by simp only [lengthPrefixBytes] at hi ⊢ <;> omega)
    · rw [if_neg hvar] at hi ⊢
      refine serializeFixedElems_frame _ e
        (fun v o c hv => serialize_index e v hv o c)
        (fun v o c hv => serialize_frame e v hv o c) vs out s hall i ?_
      rw [valuesSum_size_of_fixed e (by simpa using hvar) vs hall]
      omega
  | .list e M, v, hv, out, s, i, hi => by
    obtain ⟨vs, rfl, hlen, hall⟩ := validValue_list_elim hv
    simp only [size] at hi
    simp only [_serialize]
    by_cases hvar : isVariableSizeType e
    · rw [if_pos hvar] at hi ⊢
      exact serializeVarElems_frame _ e
        (fun v o c hv => serialize_index e v hv o c)
        (fun v o c hv => serialize_frame e v hv o c) vs out s s
        (s + vs.length * lengthPrefixBytes) hall
        (by simp only [lengthPrefixBytes]; omega) i
        (by simp only [lengthPrefixBytes] at hi ⊢ <;> omega)
    · rw [if_neg hvar] at hi ⊢
      refine serializeFixedElems_frame _ e
        (fun v o c hv => serialize_index e v hv o c)
        (fun v o c hv => serialize_frame e v hv o c) vs out s hall i ?_
      rw [valuesSum_size_of_fixed e (by simpa using hvar) vs hall]
      omega
  | .container fs, v, hv, out, s, i, hi => by
    obtain ⟨ov, rfl, hvf⟩ := validValue_container_elim hv
    simp only [size, sizeFields_split fs ov] at hi
    simp only [_serialize]
    exact serializeObjectLoop_frame fs ov (fieldsLookupValid_of_validFields fs ov hvf)
      out s s _ i (by omega) (by omega)

/-- Frame property of the container field loop: with the remaining fixed
region fitting below `cur`, the loop changes no byte below `fi` and none at or
beyond `cur` plus the variable bodies it writes. -/
theorem serializeObjectLoop_frame : ∀ (fields : SSZFields) (value : SSZObj),
    fieldsLookupValid fields value = true → ∀ (output : List Nat) (start fi cur i : Nat),
    fi + fieldsFixedLength fields ≤ cur →
    (i < fi ∨ cur + varFieldsSize fields value ≤ i) →
    getByte ((serializeObjectLoop value fields output start fi cur).1) i = getByte output i
  | .nil, ov, _, out, s, fi, cur, i, _, _ => rfl
  | .cons n t rest, ov, h, out, s, fi, cur, i, hreg, hi => by
    simp only [fieldsLookupValid, Bool.and_eq_true] at h
    simp only [fieldsFixedLength] at hreg
    simp only [varFieldsSize] at hi
    simp only [serializeObjectLoop]
    by_cases hvar : isVariableSizeType t
    · rw [if_pos hvar] at hreg hi ⊢
      have hsz := serialize_index t (ov.lookupD n) h.1 out cur
      rw [serializeObjectLoop_frame rest ov h.2 _ s _ _ i
          (by rw [hsz]; simp only [lengthPrefixBytes] at *; omega)
          (by rw [hsz]; simp only [lengthPrefixBytes] at *; omega)]
      unfold writeUIntLE
      rw [getByte_writeBytes_out _ _ _ i
          (by rw [bytesLE_length]; simp only [lengthPrefixBytes] at *; omega),
        serialize_frame t (ov.lookupD n) h.1 out cur i
          (by simp only [lengthPrefixBytes] at *; omega)]
    · rw [if_neg hvar] at hreg hi ⊢
      have hsz := serialize_index t (ov.lookupD n) h.1 out fi
      have hfx := size_eq_fixedSize t (ov.lookupD n) h.1 (by simpa using hvar)
      rw [serializeObjectLoop_frame rest ov h.2 _ s _ _ i
          (by rw [hsz, hfx]; omega) (by rw [hsz, hfx]; omega),
        serialize_frame t (ov.lookupD n) h.1 out fi i (by rw [hfx]; omega)]

end

/-- Sum of the sizes of the first `j` elements of a value sequence. -/
def sizeTake (e : FullSSZType) : SSZValues → Nat → Nat
  | _, 0 => 0
  | .nil, _ => 0
  | .cons v rest, j + 1 => size v e + sizeTake e rest j

theorem sizeTake_le_valuesSum (e : FullSSZType) : ∀ (vs : SSZValues) (j : Nat),
    sizeTake e vs j ≤ valuesSum (fun v => size v e) vs
  | .nil, j => by cases j <;> simp [sizeTake, valuesSum]
  | .cons v rest, 0 => by simp [sizeTake]
  | .cons v rest, j + 1 => by
    simp only [sizeTake, valuesSum]
    have := sizeTake_le_valuesSum e rest j
    omega

theorem sizeTake_mono (e : FullSSZType) : ∀ (vs : SSZValues) (j : Nat),
    sizeTake e vs j ≤ sizeTake e vs (j + 1)
  | .nil, j => by cases j <;> simp [sizeTake]
  | .cons v rest, 0 => by simp [sizeTake]
  | .cons v rest, j + 1 => by
    simp only [sizeTake]
    have := sizeTake_mono e rest j
    omega

/-- After the variable-size-element loop, the offset slot for element `j`
holds the little-endian encoding of `cur - start` plus the sizes of the
elements before `j`. -/
theorem serializeVarElems_content (f : SerializableValue → List Nat → Nat → List Nat × Nat)
    (e : FullSSZType)
    (Hlen : ∀ v out idx, ((f v out idx).1).length = out.length)
    (Hidx : ∀ v out idx, validValue v e = true → (f v out idx).2 = idx + size v e)
    (Hff : ∀ v out idx, validValue v e = true → ∀ i, i < idx ∨ idx + size v e ≤ i →
      getByte (f v out idx).1 i = getByte out i) :
    ∀ (vs : SSZValues) (out : List Nat) (start fi cur : Nat),
      allValues (fun v => validValue v e) vs = true →
      fi + lengthPrefixBytes * vs.length ≤ cur →
      start ≤ cur →
      cur + valuesSum (fun v => size v e) vs ≤ out.length →
      ∀ j, j < vs.length →
      readBytes ((serializeVarElems f vs out start fi cur).1)
          (fi + lengthPrefixBytes * j) lengthPrefixBytes
        = bytesLE lengthPrefixBytes (cur - start + sizeTake e vs j)
  | .nil, out, start, fi, cur, _, _, _, _, j, hj => by simp [SSZValues.length] at hj
  | .cons v rest, out, start, fi, cur, hall, hreg, hsc, hbound, j, hj => by
    simp only [allValues, Bool.and_eq_true] at hall
    simp only [SSZValues.length] at hreg hj
    simp only [valuesSum] at hbound
    simp only [serializeVarElems]
    have hrl : ((f v out cur).1).length = out.length := Hlen v out cur
    have hr2 : (f v out cur).2 = cur + size v e := Hidx v out cur hall.1
    rw [hr2]
    cases j with
    | zero =>
      simp only [sizeTake, Nat.mul_zero, Nat.add_zero]
      have hfi4 : fi + lengthPrefixBytes ≤ cur := by
        simp only [lengthPrefixBytes] at *; omega
      have hcur : cur ≤ out.length := by omega
      have hwlen : (bytesLE lengthPrefixBytes (cur - start)).length = lengthPrefixBytes :=
        bytesLE_length _ _
      have hstep : readBytes (writeUIntLE (f v out cur).1 (cur - start) fi lengthPrefixBytes)
          fi lengthPrefixBytes = bytesLE lengthPrefixBytes (cur - start) := by
        unfold writeUIntLE
        have := readBytes_writeBytes ((f v out cur).1) fi
          (bytesLE lengthPrefixBytes (cur - start)) (by rw [hwlen, hrl]; omega)
        rwa [hwlen] at this
      rw [← hstep]
      apply readBytes_congr
      · rw [serializeVarElems_length f Hlen]
      · unfold writeUIntLE
        rw [serializeVarElems_length f Hlen, writeBytes_length, hrl]
        omega
      · intro i hi
        exact serializeVarElems_frame f e Hidx Hff rest _ start (fi + lengthPrefixBytes)
          (cur + size v e) hall.2
          (by simp only [lengthPrefixBytes] at *; omega)
          (fi + i) (Or.inl (by simp only [lengthPrefixBytes] at *; omega))
    | succ j =>
      have hpos : fi + lengthPrefixBytes * (j + 1) = (fi + lengthPrefixBytes) + lengthPrefixBytes * j := by
        ring
      have hval : cur - start + sizeTake e (.cons v rest) (j + 1)
          = (cur + size v e) - start + sizeTake e rest j := by
        simp only [sizeTake]
        omega
      rw [hpos, hval]
      exact serializeVarElems_content f e Hlen Hidx Hff rest
        (writeUIntLE (f v out cur).1 (cur - start) fi lengthPrefixBytes) start
        (fi + lengthPrefixBytes) (cur + size v e)
        hall.2
        (by simp only [lengthPrefixBytes] at *; omega)
        (by omega)
        (by unfold writeUIntLE; rw [writeBytes_length, hrl]; omega)
        j (by omega)

/-- The absolute positions of the offset slots of a container's variable-size
fields, mirroring the evolution of `fixedIndex` in `_serializeObject` (a
fixed-size field advances it by its fixed size, a variable-size one by the
offset-slot width). -/
def varSlotPositions : SSZFields → Nat → List Nat
  | .nil, _ => []
  | .cons _ t rest, fi =>
    if isVariableSizeType t then fi :: varSlotPositions rest (fi + lengthPrefixBytes)
    else varSlotPositions rest (fi + fixedSize t)

/-- The offset values `_serializeObject` writes for the variable-size fields,
relative to the aggregate's start: the running `currentOffsetIndex - start`,
advanced by each variable body's size. -/
def varFieldOffsets : SSZFields → SSZObj → Nat → List Nat
  | .nil, _, _ => []
  | .cons n t rest, ov, cur =>
    if isVariableSizeType t then
      cur :: varFieldOffsets rest ov (cur + size (ov.lookupD n) t)
    else varFieldOffsets rest ov cur

/-- Number of variable-size fields, the length of the offset table. -/
def countVarFields : SSZFields → Nat
  | .nil => 0
  | .cons _ t rest => (if isVariableSizeType t then 1 else 0) + countVarFields rest

theorem varSlotPositions_length : ∀ (fs : SSZFields) (fi : Nat),
    (varSlotPositions fs fi).length = countVarFields fs
  | .nil, _ => rfl
  | .cons n t rest, fi => by
    simp only [varSlotPositions, countVarFields]
    by_cases h : isVariableSizeType t
    · rw [if_pos h, if_pos h]
      simp [varSlotPositions_length rest]
      omega
    · rw [if_neg h, if_neg h]
      simp [varSlotPositions_length rest]

theorem varFieldOffsets_length : ∀ (fs : SSZFields) (ov : SSZObj) (c : Nat),
    (varFieldOffsets fs ov c).length = countVarFields fs
  | .nil, _, _ => rfl
  | .cons n t rest, ov, c => by
    simp only [varFieldOffsets, countVarFields]
    by_cases h : isVariableSizeType t
    · rw [if_pos h, if_pos h]
      simp [varFieldOffsets_length rest]
      omega
    · rw [if_neg h, if_neg h]
      simp [varFieldOffsets_length rest]

theorem varFieldOffsets_getD_ge : ∀ (fs : SSZFields) (ov : SSZObj) (c k : Nat),
    k < (varFieldOffsets fs ov c).length → c ≤ (varFieldOffsets fs ov c).getD k 0
  | .nil, _, _, _ => by simp [varFieldOffsets]
  | .cons n t rest, ov, c, k => by
    simp only [varFieldOffsets]
    by_cases h : isVariableSizeType t
    · simp only [h, if_true]
      cases k with
      | zero => intro _; simp
      | succ k =>
        intro hk
        simp only [List.length_cons] at hk
        simp only [List.getD_cons_succ]
        have := varFieldOffsets_getD_ge rest ov (c + size (ov.lookupD n) t) k (by omega)
        omega
    · simp only [h, Bool.false_eq_true, if_false]
      exact varFieldOffsets_getD_ge rest ov c k

theorem varFieldOffsets_getD_le : ∀ (fs : SSZFields) (ov : SSZObj) (c k : Nat),
    k < (varFieldOffsets fs ov c).length →
    (varFieldOffsets fs ov c).getD k 0 ≤ c + varFieldsSize fs ov
  | .nil, _, _, _ => by simp [varFieldOffsets]
  | .cons n t rest, ov, c, k => by
    simp only [varFieldOffsets, varFieldsSize]
    by_cases h : isVariableSizeType t
    · simp only [h, if_true]
      cases k with
      | zero => intro _; simp
      | succ k =>
        intro hk
        simp only [List.length_cons] at hk
        simp only [List.getD_cons_succ]
        have := varFieldOffsets_getD_le rest ov (c + size (ov.lookupD n) t) k (by omega)
        omega
    · simp only [h, Bool.false_eq_true, if_false]
      intro hk
      have := varFieldOffsets_getD_le rest ov c k hk
      omega

theorem varFieldOffsets_getD_mono : ∀ (fs : SSZFields) (ov : SSZObj) (c k : Nat),
    k + 1 < (varFieldOffsets fs ov c).length →
    (varFieldOffsets fs ov c).getD k 0 ≤ (varFieldOffsets fs ov c).getD (k + 1) 0
  | .nil, _, _, _ => by simp [varFieldOffsets]
  | .cons n t rest, ov, c, k => by
    simp only [varFieldOffsets]
    by_cases h : isVariableSizeType t
    · simp only [h, if_true]
      cases k with
      | zero =>
        intro hk
        simp only [List.length_cons] at hk
        simp only [List.getD_cons_zero, List.getD_cons_succ]
        have := varFieldOffsets_getD_ge rest ov (c + size (ov.lookupD n) t) 0 (by omega)
        omega
      | succ k =>
        intro hk
        simp only [List.length_cons] at hk
        simp only [List.getD_cons_succ]
        exact varFieldOffsets_getD_mono rest ov (c + size (ov.lookupD n) t) k (by omega)
    · simp only [h, Bool.false_eq_true, if_false]
      exact varFieldOffsets_getD_mono rest ov c k

theorem varFieldOffsets_getD_zero : ∀ (fs : SSZFields) (ov : SSZObj) (c : Nat),
    anyFieldVariable fs = true → (varFieldOffsets fs ov c).getD 0 0 = c
  | .nil, _, _, h => by simp [anyFieldVariable] at h
  | .cons n t rest, ov, c, h => by
    simp only [varFieldOffsets]
    by_cases hv : isVariableSizeType t
    · simp [hv]
    · simp only [hv, Bool.false_eq_true, if_false]
      simp only [anyFieldVariable, Bool.or_eq_true] at h
      exact varFieldOffsets_getD_zero rest ov c (by tauto)

/-- After the container field loop, the offset slot of the `k`-th
variable-size field holds the little-endian encoding of the `k`-th entry of
`varFieldOffsets`. -/
theorem serializeObjectLoop_content : ∀ (fields : SSZFields) (ov : SSZObj),
    fieldsLookupValid fields ov = true →
    ∀ (out : List Nat) (start fi cur : Nat),
      start ≤ fi →
      fi + fieldsFixedLength fields ≤ cur →
      cur + varFieldsSize fields ov ≤ out.length →
      ∀ k, k < (varSlotPositions fields fi).length →
      readBytes ((serializeObjectLoop ov fields out start fi cur).1)
          ((varSlotPositions fields fi).getD k 0) lengthPrefixBytes
        = bytesLE lengthPrefixBytes
            ((varFieldOffsets fields ov (cur - start)).getD k 0)
  | .nil, ov, _, out, start, fi, cur, _, _, _, k => by simp [varSlotPositions]
  | .cons n t rest, ov, h, out, start, fi, cur, hsf, hreg, hbound, k => by
    simp only [fieldsLookupValid, Bool.and_eq_true] at h
    simp only [fieldsFixedLength] at hreg
    simp only [varFieldsSize] at hbound
    simp only [serializeObjectLoop, varSlotPositions, varFieldOffsets]
    have hrl := serialize_length t (ov.lookupD n) out
    by_cases hvar : isVariableSizeType t
    · simp only [hvar, if_true] at hreg hbound ⊢
      have hr2 := serialize_index t (ov.lookupD n) h.1 out cur
      rw [hr2]
      cases k with
      | zero =>
        intro _
        simp only [List.getD_cons_zero]
        have hwlen : (bytesLE lengthPrefixBytes (cur - start)).length = lengthPrefixBytes :=
          bytesLE_length _ _
        have hstep : readBytes
            (writeUIntLE (_serialize (ov.lookupD n) t out cur).1 (cur - start) fi
              lengthPrefixBytes) fi lengthPrefixBytes
            = bytesLE lengthPrefixBytes (cur - start) := by
          unfold writeUIntLE
          have := readBytes_writeBytes ((_serialize (ov.lookupD n) t out cur).1) fi
            (bytesLE lengthPrefixBytes (cur - start))
            (by rw [hwlen, hrl]; simp only [lengthPrefixBytes] at *; omega)
          rwa [hwlen] at this
        rw [← hstep]
        apply readBytes_congr
        · rw [serializeObjectLoop_length]
        · unfold writeUIntLE
          rw [serializeObjectLoop_length, writeBytes_length, hrl]
          simp only [lengthPrefixBytes] at *; omega
        · intro i hi
          exact serializeObjectLoop_frame rest ov h.2 _ start (fi + lengthPrefixBytes)
            (cur + size (ov.lookupD n) t) (fi + i)
            (by simp only [lengthPrefixBytes] at *; omega)
            (Or.inl (by simp only [lengthPrefixBytes] at *; omega))
      | succ k =>
        intro hk
        simp only [List.length_cons] at hk
        simp only [List.getD_cons_succ]
        have hoff : (varFieldOffsets rest ov (cur + size (ov.lookupD n) t - start))
            = (varFieldOffsets rest ov ((cur - start) + size (ov.lookupD n) t)) := by
          rw [show cur + size (ov.lookupD n) t - start
            = (cur - start) + size (ov.lookupD n) t by omega]
        rw [← hoff]
        exact serializeObjectLoop_content rest ov h.2
          (writeUIntLE (_serialize (ov.lookupD n) t out cur).1 (cur - start) fi
            lengthPrefixBytes) start (fi + lengthPrefixBytes)
          (cur + size (ov.lookupD n) t)
          (by omega)
          (by simp only [lengthPrefixBytes] at *; omega)
          (by unfold writeUIntLE; rw [writeBytes_length, hrl]; omega)
          k (by omega)
    · simp only [hvar, Bool.false_eq_true, if_false] at hreg hbound ⊢
      intro hk
      have hr2 := serialize_index t (ov.lookupD n) h.1 out fi
      have hfx := size_eq_fixedSize t (ov.lookupD n) h.1 (by simpa using hvar)
      rw [hr2, hfx]
      exact serializeObjectLoop_content rest ov h.2
        ((_serialize (ov.lookupD n) t out fi).1) start
        (fi + fixedSize t) cur
        (by omega)
        (by omega)
        (by rw [hrl]; omega)
        k hk

/-- C1: for every valid value `v` and type `T`, the byte sequence returned by
`serialize(v, T)` has length exactly `size(v, T)`, and the index returned by
the dispatcher `_serialize(v, T, buf, 0)` on the buffer allocated with length
`size(v, T)` equals that buffer length. -/
theorem serialize_length_eq_size (value : SerializableValue) (type : FullSSZType)
    (hv : validValue value type = true) :
    serialize value type
      = Except.ok ((_serialize value type (List.replicate (size value type) 0) 0).1) ∧
    ((_serialize value type (List.replicate (size value type) 0) 0).1).length
      = size value type ∧
    (_serialize value type (List.replicate (size value type) 0) 0).2 = size value type := by
  refine ⟨?_, ?_, ?_⟩
  · unfold serialize
    rw [hv]
    rfl
  · rw [serialize_length]
    simp
  · rw [serialize_index type value hv]
    simp

/-- Witness for C1 at `[[1], [2,3]] : List<List<Uint32>>`. -/
theorem serialize_length_eq_size_witness :
    validValue (.arr (vlist [.arr (vlist [.uint (.int 1)]),
        .arr (vlist [.uint (.int 2), .uint (.int 3)])]))
      (.list (.list (.uint ⟨4, true, 0⟩) 100) 100) = true ∧
    ((_serialize (.arr (vlist [.arr (vlist [.uint (.int 1)]),
        .arr (vlist [.uint (.int 2), .uint (.int 3)])]))
      (.list (.list (.uint ⟨4, true, 0⟩) 100) 100)
      (List.replicate (size (.arr (vlist [.arr (vlist [.uint (.int 1)]),
        .arr (vlist [.uint (.int 2), .uint (.int 3)])]))
        (.list (.list (.uint ⟨4, true, 0⟩) 100) 100)) 0) 0).1).length
      = size (.arr (vlist [.arr (vlist [.uint (.int 1)]),
        .arr (vlist [.uint (.int 2), .uint (.int 3)])]))
        (.list (.list (.uint ⟨4, true, 0⟩) 100) 100) :=
  ⟨by decide, (serialize_length_eq_size _ _ (by decide)).2.1⟩

/-- C3: for a `Uint` type of width `n` with bias `offset`, serializing a valid
in-range integer `u` (with `u + offset` also in range, as `BN.toArrayLike`
requires) writes the `n` little-endian bytes of `u + offset` at `start` and
returns `start + n`; concretely, `serialize(0, Uint32) = 00000000`,
`serialize(1, Uint32) = 01000000`, `serialize(0xDEADBEEF, Uint32) =
efbeadde`. -/
theorem serializeUint_writes_le_biased :
    (∀ (u : Nat) (t : UintType) (output : List Nat) (start : Nat),
      u < 2 ^ (8 * t.byteLength) →
      u + t.offset < 2 ^ (8 * t.byteLength) →
      start + t.byteLength ≤ output.length →
      readBytes ((_serializeUint (.int u) t output start).1) start t.byteLength
        = bytesLE t.byteLength (u + t.offset) ∧
      fromBytesLE (readBytes ((_serializeUint (.int u) t output start).1) start t.byteLength)
        = u + t.offset ∧
      (_serializeUint (.int u) t output start).2 = start + t.byteLength) ∧
    serialize (.uint (.int 0)) (.uint ⟨4, true, 0⟩) = Except.ok [0x00, 0x00, 0x00, 0x00] ∧
    serialize (.uint (.int 1)) (.uint ⟨4, true, 0⟩) = Except.ok [0x01, 0x00, 0x00, 0x00] ∧
    serialize (.uint (.int 0xDEADBEEF)) (.uint ⟨4, true, 0⟩)
      = Except.ok [0xef, 0xbe, 0xad, 0xde] := by
  refine ⟨?_, by rfl, by rfl, by rfl⟩
  intro u t output start hu hrange hlen
  have hcond : (decide (t.byteLength > 6) && t.useNumber && (Uint.int u == Uint.inf)) = false := by
    simp
  have heq : _serializeUint (.int u) t output start
      = (writeBytes output start (bytesLE t.byteLength (Uint.toNat (.int u) + t.offset)),
          start + t.byteLength) := by
    unfold _serializeUint
    rw [hcond]
    rfl
  rw [heq]
  have hread : readBytes (writeBytes output start
        (bytesLE t.byteLength (Uint.toNat (.int u) + t.offset))) start t.byteLength
      = bytesLE t.byteLength (u + t.offset) := by
    have := readBytes_writeBytes output start
      (bytesLE t.byteLength (Uint.toNat (.int u) + t.offset))
      (by rw [bytesLE_length]; omega)
    rw [bytesLE_length] at this
    exact this
  exact ⟨hread, by rw [hread, fromBytesLE_bytesLE t.byteLength _ hrange], rfl⟩

/-- Witness for C3 at `u = 0xDEADBEEF`, `Uint32`. -/
theorem serializeUint_writes_le_biased_witness :
    0xDEADBEEF < 2 ^ (8 * 4) ∧
    readBytes ((_serializeUint (.int 0xDEADBEEF) ⟨4, true, 0⟩ (List.replicate 4 0) 0).1) 0 4
      = bytesLE 4 (0xDEADBEEF + 0) :=
  ⟨by decide,
    (serializeUint_writes_le_biased.1 0xDEADBEEF ⟨4, true, 0⟩ (List.replicate 4 0) 0
      (by decide) (by decide) (by decide)).1⟩

/-- C4: for `byteLength > 6` with `useNumber`, serializing the infinity
sentinel writes `byteLength` bytes of `0xFF`; when `byteLength ≤ 6` or
`useNumber` is unset, the sentinel branch is not taken and an integer value is
encoded through the ordinary biased little-endian path. -/
theorem serializeUint_inf_sentinel_all_ff :
    (∀ (t : UintType) (output : List Nat) (start : Nat),
      t.byteLength > 6 → t.useNumber = true →
      _serializeUint .inf t output start
        = (writeBytes output start (List.replicate t.byteLength 255),
            start + t.byteLength)) ∧
    (∀ (t : UintType) (u : Nat) (output : List Nat) (start : Nat),
      u + t.offset < 2 ^ (8 * t.byteLength) →
      t.byteLength ≤ 6 ∨ t.useNumber = false →
      _serializeUint (.int u) t output start
        = (writeBytes output start (bytesLE t.byteLength (u + t.offset)),
            start + t.byteLength)) := by
  constructor
  · intro t output start hbig hnum
    have hcond : (decide (t.byteLength > 6) && t.useNumber && (Uint.inf == Uint.inf)) = true := by
      simp [hbig, hnum]
    unfold _serializeUint
    rw [hcond]
    rfl
  · intro t u output start hrange hother
    have hcond : (decide (t.byteLength > 6) && t.useNumber && (Uint.int u == Uint.inf))
        = false := by simp
    unfold _serializeUint
    rw [hcond]
    rfl

/-- Witness for C4 at `Uint64` (`byteLength = 8`, `useNumber`) and at
`Uint32`. -/
theorem serializeUint_inf_sentinel_all_ff_witness :
    ((8 : Nat) > 6 ∧
      _serializeUint .inf ⟨8, true, 0⟩ (List.replicate 8 0) 0
        = (writeBytes (List.replicate 8 0) 0 (List.replicate 8 255), 0 + 8)) ∧
    ((4 : Nat) ≤ 6 ∨ False) ∧
    _serializeUint (.int 7) ⟨4, true, 0⟩ (List.replicate 4 0) 0
      = (writeBytes (List.replicate 4 0) 0 (bytesLE 4 (7 + 0)), 0 + 4) :=
  ⟨⟨by decide, serializeUint_inf_sentinel_all_ff.1 ⟨8, true, 0⟩ (List.replicate 8 0) 0
      (by decide) rfl⟩,
    Or.inl (by decide),
    serializeUint_inf_sentinel_all_ff.2 ⟨4, true, 0⟩ 7 (List.replicate 4 0) 0
      (by decide) (Or.inl (by decide))⟩

/-- C9: the infinity-sentinel encoding is all `0xFF` for every additive
`offset` parameter — the bias is not added to the sentinel, so the result does
not depend on `offset`. -/
theorem serializeUint_sentinel_ignores_offset (n off1 off2 : Nat) (output : List Nat)
    (start : Nat) (hbig : n > 6) :
    _serializeUint .inf ⟨n, true, off1⟩ output start
      = (writeBytes output start (List.replicate n 255), start + n) ∧
    _serializeUint .inf ⟨n, true, off1⟩ output start
      = _serializeUint .inf ⟨n, true, off2⟩ output start := by
  have h : ∀ o, _serializeUint .inf ⟨n, true, o⟩ output start
      = (writeBytes output start (List.replicate n 255), start + n) := by
    intro o
    have hcond : (decide ((⟨n, true, o⟩ : UintType).byteLength > 6)
        && (⟨n, true, o⟩ : UintType).useNumber && (Uint.inf == Uint.inf)) = true := by
      simp [hbig]
    unfold _serializeUint
    rw [hcond]
    rfl
  exact ⟨h off1, (h off1).trans (h off2).symm⟩

/-- Witness for C9 at `n = 32` (`Uint256`), biases 0 and 77. -/
theorem serializeUint_sentinel_ignores_offset_witness :
    (32 : Nat) > 6 ∧
    _serializeUint .inf ⟨32, true, 0⟩ (List.replicate 32 0) 0
      = _serializeUint .inf ⟨32, true, 77⟩ (List.replicate 32 0) 0 :=
  ⟨by decide,
    (serializeUint_sentinel_ignores_offset 32 0 77 (List.replicate 32 0) 0 (by decide)).2⟩

/-- C7: when validation rejects the value, `serialize` returns the error and
no output buffer — validation completes before the buffer is allocated or
written, so no partial write is observable. -/
theorem serialize_invalid_no_buffer (value : SerializableValue) (type : FullSSZType)
    (hv : validValue value type = false) :
    serialize value type = Except.error "invalid value" := by
  unfold serialize
  rw [hv]
  rfl

/-- Witness for C7 at an out-of-range `Uint8` value. -/
theorem serialize_invalid_no_buffer_witness :
    validValue (.uint (.int 256)) (.uint ⟨1, true, 0⟩) = false ∧
    serialize (.uint (.int 256)) (.uint ⟨1, true, 0⟩) = Except.error "invalid value" :=
  ⟨by decide, serialize_invalid_no_buffer _ _ (by decide)⟩

/-- C8: serializing an empty list produces the empty byte sequence, whether
the element type is fixed-size or variable-size. -/
theorem serialize_empty_list_empty (e : FullSSZType) (M : Nat) :
    serialize (.arr .nil) (.list e M) = Except.ok [] := by
  have hv : validValue (.arr .nil) (.list e M) = true := by
    simp [validValue, allValues, SSZValues.length]
  have hsz : size (.arr .nil) (.list e M) = 0 := by
    simp only [size, SSZValues.length, valuesSum]
    by_cases hvar : isVariableSizeType e
    · rw [if_pos hvar]
      simp
    · rw [if_neg hvar]
      simp
  unfold serialize
  rw [hv]
  simp only [hsz, if_true, List.replicate]
  have : ∀ out, (_serialize (.arr .nil) (.list e M) out 0).1 = out := by
    intro out
    simp only [_serialize]
    by_cases hvar : isVariableSizeType e
    · rw [if_pos hvar]
      rfl
    · rw [if_neg hvar]
      rfl
  rw [this]

/-- C5: `serialize([[1], [2,3]], List<List<Uint32>>)` produces exactly the 20
bytes `08000000 0c000000 01000000 02000000 03000000`, for any list bounds
admitting the value. -/
theorem serialize_nested_list_example (M1 M2 : Nat) (h1 : 2 ≤ M1) (h2 : 2 ≤ M2) :
    serialize (.arr (vlist [.arr (vlist [.uint (.int 1)]),
        .arr (vlist [.uint (.int 2), .uint (.int 3)])]))
      (.list (.list (.uint ⟨4, true, 0⟩) M1) M2)
      = Except.ok [0x08, 0x00, 0x00, 0x00, 0x0c, 0x00, 0x00, 0x00,
          0x01, 0x00, 0x00, 0x00, 0x02, 0x00, 0x00, 0x00, 0x03, 0x00, 0x00, 0x00] := by
  have hv : validValue (.arr (vlist [.arr (vlist [.uint (.int 1)]),
        .arr (vlist [.uint (.int 2), .uint (.int 3)])]))
      (.list (.list (.uint ⟨4, true, 0⟩) M1) M2) = true := by
    norm_num [validValue, allValues, vlist, SSZValues.length, h1, h2]
    omega
  unfold serialize
  rw [hv]
  norm_num [_serialize, vlist, isVariableSizeType, serializeVarElems, serializeFixedElems,
    SSZValues.length, lengthPrefixBytes, writeUIntLE, _serializeUint, Uint.toNat, bytesLE,
    writeBytes, List.replicate, valuesSum, size, fixedSize]

/-- Witness for C5 at bounds 100. -/
theorem serialize_nested_list_example_witness :
    (2 : Nat) ≤ 100 ∧
    serialize (.arr (vlist [.arr (vlist [.uint (.int 1)]),
        .arr (vlist [.uint (.int 2), .uint (.int 3)])]))
      (.list (.list (.uint ⟨4, true, 0⟩) 100) 100)
      = Except.ok [0x08, 0x00, 0x00, 0x00, 0x0c, 0x00, 0x00, 0x00,
          0x01, 0x00, 0x00, 0x00, 0x02, 0x00, 0x00, 0x00, 0x03, 0x00, 0x00, 0x00] :=
  ⟨by decide, serialize_nested_list_example 100 100 (by decide) (by decide)⟩

/-- C6: a container mixing a fixed field and a variable field lays out the
fixed field inline, one 4-byte offset slot, then the variable body:
`{x: 0x0102, y: [9, 10]}` at `{x: Uint16, y: List<Uint32>}` serializes to
`0201 06000000 09000000 0a000000`. -/
theorem serialize_mixed_container_example (M : Nat) (hM : 2 ≤ M) :
    serialize (.obj (olist [("x", .uint (.int 0x0102)),
        ("y", .arr (vlist [.uint (.int 9), .uint (.int 10)]))]))
      (.container (flist [("x", .uint ⟨2, true, 0⟩), ("y", .list (.uint ⟨4, true, 0⟩) M)]))
      = Except.ok [0x02, 0x01, 0x06, 0x00, 0x00, 0x00,
          0x09, 0x00, 0x00, 0x00, 0x0a, 0x00, 0x00, 0x00] := by
  have hv : validValue (.obj (olist [("x", .uint (.int 0x0102)),
        ("y", .arr (vlist [.uint (.int 9), .uint (.int 10)]))]))
      (.container (flist [("x", .uint ⟨2, true, 0⟩),
        ("y", .list (.uint ⟨4, true, 0⟩) M)])) = true := by
    norm_num [validValue, validFields, allValues, vlist, olist, flist, SSZValues.length,
      SSZObj.hasName, hM]
    decide
  unfold serialize
  rw [hv]
  norm_num [_serialize, vlist, olist, flist, isVariableSizeType, serializeVarElems,
    serializeFixedElems, serializeObjectLoop, fieldsFixedLength, SSZObj.lookupD,
    SSZObj.lookup, SSZValues.length, lengthPrefixBytes, writeUIntLE, _serializeUint,
    Uint.toNat, bytesLE, writeBytes, List.replicate, valuesSum, size, sizeFields, fixedSize]

/-- Witness for C6 at bound 100. -/
theorem serialize_mixed_container_example_witness :
    (2 : Nat) ≤ 100 ∧
    serialize (.obj (olist [("x", .uint (.int 0x0102)),
        ("y", .arr (vlist [.uint (.int 9), .uint (.int 10)]))]))
      (.container (flist [("x", .uint ⟨2, true, 0⟩), ("y", .list (.uint ⟨4, true, 0⟩) 100)]))
      = Except.ok [0x02, 0x01, 0x06, 0x00, 0x00, 0x00,
          0x09, 0x00, 0x00, 0x00, 0x0a, 0x00, 0x00, 0x00] :=
  ⟨by decide, serialize_mixed_container_example 100 (by decide)⟩

/-- C10: on a large-enough buffer, `_serialize` writes only inside
`[start, start + size(value, type))`: every byte outside that range keeps its
prior value, and the buffer length is unchanged. -/
theorem serialize_frame_effect (value : SerializableValue) (type : FullSSZType)
    (hv : validValue value type = true) (out : List Nat) (start : Nat)
    (hroom : start + size value type ≤ out.length) :
    (∀ i, i < start ∨ start + size value type ≤ i →
      getByte ((_serialize value type out start).1) i = getByte out i) ∧
    ((_serialize value type out start).1).length = out.length :=
  ⟨fun i hi => serialize_frame type value hv out start i hi,
    serialize_length type value out start⟩

/-- Witness for C10: serializing a `Uint32` at offset 3 of a 10-byte buffer
leaves byte 0 unchanged. -/
theorem serialize_frame_effect_witness :
    (validValue (.uint (.int 5)) (.uint ⟨4, true, 0⟩) = true ∧
      3 + size (.uint (.int 5)) (.uint ⟨4, true, 0⟩) ≤ (List.replicate 10 7).length) ∧
    getByte ((_serialize (.uint (.int 5)) (.uint ⟨4, true, 0⟩)
      (List.replicate 10 7) 3).1) 0 = getByte (List.replicate 10 7) 0 :=
  ⟨⟨by decide, by decide⟩,
    (serialize_frame_effect (.uint (.int 5)) (.uint ⟨4, true, 0⟩) (by decide)
      (List.replicate 10 7) 3 (by decide)).1 0 (Or.inl (by decide))⟩

theorem countVarFields_pos : ∀ (fs : SSZFields), anyFieldVariable fs = true →
    0 < countVarFields fs
  | .nil, h => by simp [anyFieldVariable] at h
  | .cons n t rest, h => by
    simp only [anyFieldVariable, Bool.or_eq_true] at h
    simp only [countVarFields]
    by_cases hv : isVariableSizeType t
    · rw [if_pos hv]
      omega
    · rw [if_neg hv]
      have := countVarFields_pos rest (by tauto)
      omega

/-- C2: in any aggregate with variable-size children, the 4-byte little-endian
offsets written into the fixed region are non-decreasing in child order, and
the first offset equals the fixed-region length — `len·4` for arrays, and the
sum of fixed sizes and offset-slot widths for containers.  The first conjunct
of each part characterizes every offset exactly; the remaining conjuncts state
the first-offset and monotonicity properties of the claim. -/
theorem aggregate_offset_table_spec :
    (∀ (e : FullSSZType) (vs : SSZValues) (out : List Nat) (start : Nat),
      isVariableSizeType e = true →
      allValues (fun v => validValue v e) vs = true →
      start + (vs.length * lengthPrefixBytes + valuesSum (fun v => size v e) vs)
        ≤ out.length →
      vs.length * lengthPrefixBytes + valuesSum (fun v => size v e) vs
        < 2 ^ (8 * lengthPrefixBytes) →
      (∀ j, j < vs.length →
        fromBytesLE (readBytes ((_serializeArray vs e out start).1)
            (start + lengthPrefixBytes * j) lengthPrefixBytes)
          = vs.length * lengthPrefixBytes + sizeTake e vs j) ∧
      (0 < vs.length →
        fromBytesLE (readBytes ((_serializeArray vs e out start).1) start lengthPrefixBytes)
          = vs.length * lengthPrefixBytes) ∧
      (∀ j, j + 1 < vs.length →
        fromBytesLE (readBytes ((_serializeArray vs e out start).1)
            (start + lengthPrefixBytes * j) lengthPrefixBytes)
          ≤ fromBytesLE (readBytes ((_serializeArray vs e out start).1)
            (start + lengthPrefixBytes * (j + 1)) lengthPrefixBytes))) ∧
    (∀ (fs : SSZFields) (ov : SSZObj) (out : List Nat) (start : Nat),
      validFields fs ov = true →
      start + sizeFields fs ov ≤ out.length →
      sizeFields fs ov < 2 ^ (8 * lengthPrefixBytes) →
      (∀ k, k < countVarFields fs →
        fromBytesLE (readBytes ((_serializeObject ov fs out start).1)
            ((varSlotPositions fs start).getD k 0) lengthPrefixBytes)
          = (varFieldOffsets fs ov (fieldsFixedLength fs)).getD k 0) ∧
      (anyFieldVariable fs = true →
        fromBytesLE (readBytes ((_serializeObject ov fs out start).1)
            ((varSlotPositions fs start).getD 0 0) lengthPrefixBytes)
          = fieldsFixedLength fs) ∧
      (∀ k, k + 1 < countVarFields fs →
        fromBytesLE (readBytes ((_serializeObject ov fs out start).1)
            ((varSlotPositions fs start).getD k 0) lengthPrefixBytes)
          ≤ fromBytesLE (readBytes ((_serializeObject ov fs out start).1)
            ((varSlotPositions fs start).getD (k + 1) 0) lengthPrefixBytes))) := by
  constructor
  · intro e vs out start hvar hall hroom hsmall
    have hres : _serializeArray vs e out start
        = serializeVarElems (fun v o c => _serialize v e o c) vs out start start
            (start + vs.length * lengthPrefixBytes) := by
      unfold _serializeArray
      rw [if_pos hvar]
    have hcontent : ∀ j, j < vs.length →
        readBytes ((_serializeArray vs e out start).1) (start + lengthPrefixBytes * j)
          lengthPrefixBytes
          = bytesLE lengthPrefixBytes (vs.length * lengthPrefixBytes + sizeTake e vs j) := by
      intro j hj
      have hc := serializeVarElems_content (fun v o c => _serialize v e o c) e
        (fun v o c => serialize_length e v o c)
        (fun v o c hv => serialize_index e v hv o c)
        (fun v o c hv => serialize_frame e v hv o c)
        vs out start start (start + vs.length * lengthPrefixBytes) hall
        (by simp only [lengthPrefixBytes] at *; omega)
        (by omega)
        (by simp only [lengthPrefixBytes] at *; omega)
        j hj
      have harith : (start + vs.length * lengthPrefixBytes) - start + sizeTake e vs j
          = vs.length * lengthPrefixBytes + sizeTake e vs j := by omega
      rw [harith] at hc
      rw [hres]
      exact hc
    have hval : ∀ j, j < vs.length →
        fromBytesLE (readBytes ((_serializeArray vs e out start).1)
            (start + lengthPrefixBytes * j) lengthPrefixBytes)
          = vs.length * lengthPrefixBytes + sizeTake e vs j := by
      intro j hj
      rw [hcontent j hj, fromBytesLE_bytesLE lengthPrefixBytes _ ?_]
      have := sizeTake_le_valuesSum e vs j
      omega
    refine ⟨hval, ?_, ?_⟩
    · intro hpos
      have := hval 0 hpos
      simpa [sizeTake] using this
    · intro j hj
      rw [hval j (by omega), hval (j + 1) hj]
      have := sizeTake_mono e vs j
      omega
  · intro fs ov out start hvf hroom hsmall
    have hsplit := sizeFields_split fs ov
    have hlk := fieldsLookupValid_of_validFields fs ov hvf
    have hcontent : ∀ k, k < countVarFields fs →
        readBytes ((_serializeObject ov fs out start).1)
            ((varSlotPositions fs start).getD k 0) lengthPrefixBytes
          = bytesLE lengthPrefixBytes
              ((varFieldOffsets fs ov (fieldsFixedLength fs)).getD k 0) := by
      intro k hk
      have hc := serializeObjectLoop_content fs ov hlk out start start
        (start + fieldsFixedLength fs) (Nat.le_refl start) (Nat.le_refl _)
        (by omega)
        k (by rw [varSlotPositions_length]; exact hk)
      have harith : start + fieldsFixedLength fs - start = fieldsFixedLength fs := by omega
      rw [harith] at hc
      unfold _serializeObject
      exact hc
    have hval : ∀ k, k < countVarFields fs →
        fromBytesLE (readBytes ((_serializeObject ov fs out start).1)
            ((varSlotPositions fs start).getD k 0) lengthPrefixBytes)
          = (varFieldOffsets fs ov (fieldsFixedLength fs)).getD k 0 := by
      intro k hk
      rw [hcontent k hk, fromBytesLE_bytesLE lengthPrefixBytes _ ?_]
      have hle := varFieldOffsets_getD_le fs ov (fieldsFixedLength fs) k
        (by rw [varFieldOffsets_length]; exact hk)
      omega
    refine ⟨hval, ?_, ?_⟩
    · intro hany
      rw [hval 0 (countVarFields_pos fs hany),
        varFieldOffsets_getD_zero fs ov _ hany]
    · intro k hk
      rw [hval k (by omega), hval (k + 1) hk]
      exact varFieldOffsets_getD_mono fs ov _ k
        (by rw [varFieldOffsets_length]; exact hk)

/-- Witness for C2: the mixed container `{x: Uint16, y: List<Uint32>}` with
`{x: 0x0102, y: [9, 10]}` — its single offset slot reads back as the
fixed-region length 6. -/
theorem aggregate_offset_table_spec_witness :
    validFields (flist [("x", .uint ⟨2, true, 0⟩), ("y", .list (.uint ⟨4, true, 0⟩) 100)])
      (olist [("x", .uint (.int 0x0102)),
        ("y", .arr (vlist [.uint (.int 9), .uint (.int 10)]))]) = true ∧
    fromBytesLE (readBytes ((_serializeObject
        (olist [("x", .uint (.int 0x0102)),
          ("y", .arr (vlist [.uint (.int 9), .uint (.int 10)]))])
        (flist [("x", .uint ⟨2, true, 0⟩), ("y", .list (.uint ⟨4, true, 0⟩) 100)])
        (List.replicate 14 0) 0).1)
      ((varSlotPositions (flist [("x", .uint ⟨2, true, 0⟩),
        ("y", .list (.uint ⟨4, true, 0⟩) 100)]) 0).getD 0 0) lengthPrefixBytes)
      = fieldsFixedLength (flist [("x", .uint ⟨2, true, 0⟩),
        ("y", .list (.uint ⟨4, true, 0⟩) 100)]) :=
  ⟨by decide,
    (aggregate_offset_table_spec.2
      (flist [("x", .uint ⟨2, true, 0⟩), ("y", .list (.uint ⟨4, true, 0⟩) 100)])
      (olist [("x", .uint (.int 0x0102)),
        ("y", .arr (vlist [.uint (.int 9), .uint (.int 10)]))])
      (List.replicate 14 0) 0 (by decide) (by decide) (by decide)).2.1 (by decide)⟩

end SSZ
